import Mathlib

/-!
Verification of the Cangjie → Pleco dictionary builder
(`cangjie_to_pleco_pqb.py`) against its specification.

Text is modelled as `List Char` (Python strings are sequences of Unicode
codepoints).  The external `pypinyin` library is abstracted as a
per-character oracle `Char → Option (List Char)`.  The SQLite store is
modelled explicitly: the committed on-disk state of the output file is a
`DBFile`, and the filesystem slot at the output path is an `Option DBFile`
(`none` = no file at the path).
-/

/-- U+EAB1, the Pleco private-use newline sentinel (`PLECO_NL`). -/
def PLECO_NL : Char := ''

/-- The fixed 26-entry Latin-letter → Cangjie key-shape table (`LATIN_TO_SHAPE`). -/
def LATIN_TO_SHAPE : List (Char × Char) :=
  [('a','日'),('b','月'),('c','金'),('d','木'),('e','水'),('f','火'),('g','土'),
   ('h','竹'),('i','戈'),('j','十'),('k','大'),('l','中'),('m','一'),('n','弓'),
   ('o','人'),('p','心'),('q','手'),('r','口'),('s','尸'),('t','廿'),('u','山'),
   ('v','女'),('w','田'),('x','難'),('y','卜'),('z','重')]

/-- One character of `latin_code_to_shapes`: `LATIN_TO_SHAPE.get(ch, ch)`. -/
def shapeOf (c : Char) : Char :=
  (LATIN_TO_SHAPE.lookup c).getD c

/-- `latin_code_to_shapes`: map each letter of a code through the table,
unknown letters are left as-is. -/
def latin_code_to_shapes (code : List Char) : List Char :=
  code.map shapeOf

/-- The eleven permitted ideographic codepoint ranges (`CJK_RANGES`). -/
def CJK_RANGES : List (Nat × Nat) :=
  [(0x4E00, 0x9FFF), (0x3400, 0x4DBF), (0x20000, 0x2A6DF),
   (0x2A700, 0x2B73F), (0x2B740, 0x2B81D), (0x2B820, 0x2CEAD),
   (0x2CEB0, 0x2EBE0), (0x31350, 0x323AF), (0x2EBF0, 0x2EE5D),
   (0x323B0, 0x33479), (0x2F800, 0x2FA1F)]

/-- The single allowed exception codepoint U+3007 〇 (`EXTRA_ALLOWED`). -/
def EXTRA_ALLOWED : List Nat := [0x3007]

/-- `is_cjk_word`: non-empty, and every character is either the exception
codepoint or inside one of the permitted ranges. -/
def is_cjk_word (word : List Char) : Bool :=
  match word with
  | [] => false
  | _ =>
    word.all (fun ch =>
      EXTRA_ALLOWED.contains ch.toNat ||
      CJK_RANGES.any (fun r => decide (r.1 ≤ ch.toNat) && decide (ch.toNat ≤ r.2)))

/-- The character class of Python's regex `\s` and of `str.strip`
(the Unicode whitespace set used by the loader's splitting and stripping). -/
def pyWhitespace (c : Char) : Bool :=
  let n := c.toNat
  (decide (0x09 ≤ n) && decide (n ≤ 0x0D)) || decide (n = 0x20) ||
  (decide (0x1C ≤ n) && decide (n ≤ 0x1F)) || decide (n = 0x85) || decide (n = 0xA0) ||
  decide (n = 0x1680) || (decide (0x2000 ≤ n) && decide (n ≤ 0x200A)) ||
  decide (n = 0x2028) || decide (n = 0x2029) || decide (n = 0x202F) ||
  decide (n = 0x205F) || decide (n = 0x3000)

/-- Python `str.strip()`: drop whitespace from both ends. -/
def pyStrip (l : List Char) : List Char :=
  ((l.dropWhile pyWhitespace).reverse.dropWhile pyWhitespace).reverse

/-- Flush a (reversed) in-progress token onto a token list, when non-empty. -/
def pushTok (acc : List Char) (toks : List (List Char)) : List (List Char) :=
  if acc.isEmpty then toks else acc.reverse :: toks

/-- Worker for `splitRuns`; `acc` holds the current token reversed. -/
def splitRunsAux (sep : Char → Bool) : List Char → List Char → List (List Char)
  | [], acc => pushTok acc []
  | c :: rest, acc =>
    if sep c then pushTok acc (splitRunsAux sep rest [])
    else splitRunsAux sep rest (c :: acc)

/-- Split a string into its maximal runs of non-separator characters.
This is Python's `re.split` on a run of separators, with empty pieces
dropped (the loader applies it to stripped lines, `split_pron_tokens`
filters the empties explicitly). -/
def splitRuns (sep : Char → Bool) (l : List Char) : List (List Char) :=
  splitRunsAux sep l []

/-- One line of `load_cangjie_table`: `some (code, hanzi)` when the line is
accepted, `none` when it is silently skipped. -/
def parseLine (raw : List Char) : Option (List Char × Char) :=
  let line := pyStrip raw
  if line.isEmpty then none
  else if line.head? = some '#' then none
  else
    match splitRuns pyWhitespace line with
    | codeTok :: charTok :: _ =>
      let code := pyStrip codeTok
      let char := pyStrip charTok
      if code.isEmpty || char.isEmpty then none
      else
        match char with
        | [c] => if is_cjk_word [c] then some (code, c) else none
        | _ => none
    | _ => none

/-- Model of the Python `set` of codes per character: insertion-ordered,
duplicates collapse (`set.add`). -/
def addCode (codes : List (List Char)) (c : List Char) : List (List Char) :=
  if c ∈ codes then codes else codes ++ [c]

/-- Insert one `(character, code)` pair into the table
(`table.setdefault(char, set()).add(code)`). -/
def tableInsert : List (Char × List (List Char)) → Char → List Char →
    List (Char × List (List Char))
  | [], ch, code => [(ch, [code])]
  | (c, cs) :: rest, ch, code =>
    if c = ch then (c, addCode cs code) :: rest
    else (c, cs) :: tableInsert rest ch code

/-- The loader's line loop, on the lines of the file. -/
def loadLines (lines : List (List Char)) : List (Char × List (List Char)) :=
  lines.foldl
    (fun tbl line =>
      match parseLine line with
      | some (code, ch) => tableInsert tbl ch code
      | none => tbl)
    []

/-- `load_cangjie_table`: the file's `text.lstrip("﻿")` strips the
leading byte-order mark(s), which affects only the first line. -/
def load_cangjie_table (lines : List (List Char)) : List (Char × List (List Char)) :=
  loadLines
    (match lines with
     | [] => []
     | first :: rest => (first.dropWhile (fun c => c = '﻿')) :: rest)

/-- `cj.get(ch, set())`. -/
def tableGet (tbl : List (Char × List (List Char))) (ch : Char) : List (List Char) :=
  (tbl.lookup ch).getD []

/-- Python `sorted` on a set of code strings: ascending lexicographic order
of the code strings. -/
def sortedCodes (codes : List (List Char)) : List (List Char) :=
  List.insertionSort (· ≤ ·) codes

/-- Worker for `dedupKeepFirst` carrying the set of already-seen elements. -/
def dedupKeepFirstAux {α : Type} [DecidableEq α] : List α → List α → List α
  | [], _ => []
  | a :: l, seen =>
    if a ∈ seen then dedupKeepFirstAux l seen
    else a :: dedupKeepFirstAux l (a :: seen)

/-- Python `dict.fromkeys`: de-duplicate keeping the first occurrence of
each element, preserving order. -/
def dedupKeepFirst {α : Type} [DecidableEq α] (l : List α) : List α :=
  dedupKeepFirstAux l []

/-- The `" / "` join separator. -/
def SLASH_SEP : List Char := [' ', '/', ' ']

/-- `format_section`: label line, glyph-transliterated codes joined by
`" / "`, raw codes joined by `" / "`, all joined by the sentinel. -/
def format_section (label : List Char) (codes : List (List Char)) : List Char :=
  let codes2 := dedupKeepFirst codes
  let shapes := codes2.map latin_code_to_shapes
  label ++ [':'] ++ [PLECO_NL] ++
    List.intercalate SLASH_SEP shapes ++ [PLECO_NL] ++
    List.intercalate SLASH_SEP codes2

/-- The per-character composition block of `main` (lines 318–333): sort each
system's code set, skip the character when both are empty (`none`), emit one
unified section when the sorted lists are equal, else one section per
non-empty system joined by a double sentinel. -/
def composeDefn (cj3codes cj5codes : List (List Char)) : Option (List Char) :=
  let codes3 := sortedCodes cj3codes
  let codes5 := sortedCodes cj5codes
  if codes3 = [] ∧ codes5 = [] then none
  else if codes3 = codes5 then
    some (format_section "Cangjie".toList codes3)
  else
    some (List.intercalate [PLECO_NL, PLECO_NL]
      ((if codes3 = [] then [] else [format_section "Cangjie3".toList codes3]) ++
       (if codes5 = [] then [] else [format_section "Cangjie5".toList codes5])))

/-- `main`'s entries dictionary: one composed definition per character of
the union of the two tables. -/
def buildEntries (cj3 cj5 : List (Char × List (List Char))) : List (Char × List Char) :=
  let allChars := dedupKeepFirst (cj3.map Prod.fst ++ cj5.map Prod.fst)
  allChars.filterMap
    (fun ch => (composeDefn (tableGet cj3 ch) (tableGet cj5 ch)).map (fun d => (ch, d)))

/-- `to_fullwidth_ascii`: shift printable ASCII by the fixed 0xFEE0 offset,
pass everything else through. -/
def to_fullwidth_ascii (s : List Char) : List Char :=
  s.map (fun ch =>
    if 0x21 ≤ ch.toNat ∧ ch.toNat ≤ 0x7E then Char.ofNat (ch.toNat + 0xFEE0) else ch)

/-- Python `syl.replace("ü", "v")`. -/
def replaceUmlaut (s : List Char) : List Char :=
  s.map (fun c => if c = 'ü' then 'v' else c)

/-- `mandarin_pinyin_tone3`, with the external `pypinyin` call abstracted as
the per-character oracle `lookup`; `errors=lambda _: [""]` makes an
unrecognized character contribute the empty syllable, and `ü` is replaced
by `v` in every syllable. -/
def mandarin_pinyin_tone3 (lookup : Char → Option (List Char)) (word : List Char) :
    List (List Char) :=
  word.map (fun c => replaceUmlaut ((lookup c).getD []))

/-- `make_sortkey`: for a single-character word, the full-width transform of
the first syllable followed by the word; otherwise the per-character
concatenation. -/
def make_sortkey (py : List (List Char)) (word : List Char) : List Char :=
  if word.length = 1 then to_fullwidth_ascii (py.headD []) ++ word
  else ((word.zip py).map (fun p => to_fullwidth_ascii p.2 ++ [p.1])).flatten

/-- The sort key actually stored by `build_pqb`:
`sk = make_sortkey(py, ch) or ch`. -/
def sortkeyOf (lookup : Char → Option (List Char)) (ch : Char) : List Char :=
  let sk := make_sortkey (mandarin_pinyin_tone3 lookup [ch]) [ch]
  if sk.isEmpty then [ch] else sk

/-- `split_pron_tokens`: split the stripped pronunciation string on runs of
whitespace or `@`, dropping empty pieces. -/
def split_pron_tokens (pron : List Char) : List (List Char) :=
  splitRuns (fun c => pyWhitespace c || c = '@') (pyStrip pron)

/-- One row of the `pleco_dict_entries` table. -/
structure EntryRow where
  uid : Nat
  created : Nat
  modified : Nat
  length : Nat
  word : List Char
  altword : Option (List Char)
  pron : List Char
  defn : List Char
  sortkey : List Char
deriving DecidableEq

/-- The two positional-index families (`posdex_hz_*` / `posdex_py_*`). -/
inductive Fam where
  | hz : Fam
  | py : Fam
deriving DecidableEq

/-- One row of a `pleco_dict_posdex_{hz,py}_{1..4}` table; `pos` names which
of the four tables the row went into. -/
structure PosdexRow where
  fam : Fam
  pos : Nat
  syllable : List Char
  uid : Nat
  length : Nat
deriving DecidableEq

/-- `enumerate(..., start=i)` over the tokens of one family: tag each token
with its position. -/
def tagIdx (fam : Fam) (uid wlen : Nat) : Nat → List (List Char) → List PosdexRow
  | _, [] => []
  | i, t :: ts => ⟨fam, i, t, uid, wlen⟩ :: tagIdx fam uid wlen (i + 1) ts

/-- `insert_posdex`: the first four characters of the word and the first four
pronunciation tokens become position-tagged index rows, each carrying the
entry's full length. -/
def insert_posdex (uid : Nat) (word : List Char) (pron : List Char) : List PosdexRow :=
  let wlen := word.length
  tagIdx Fam.hz uid wlen 1 ((word.take 4).map (fun ch => [ch])) ++
  tagIdx Fam.py uid wlen 1 ((split_pron_tokens pron).take 4)

/-- The entry row built by one iteration of `build_pqb`'s loop. -/
def mkEntryRow (lookup : Char → Option (List Char)) (now uid : Nat) (ch : Char)
    (defn : List Char) : EntryRow :=
  let py := mandarin_pinyin_tone3 lookup [ch]
  let pron := List.intercalate [' '] py
  ⟨uid, now, now, 1, [ch], none, pron, defn, sortkeyOf lookup ch⟩

/-- `build_pqb`'s loop over the sorted characters, threading the `uid` counter. -/
def entryRowsGo (lookup : Char → Option (List Char)) (now : Nat)
    (entries : List (Char × List Char)) : List Char → Nat → List EntryRow
  | [], _ => []
  | ch :: rest, uid =>
    mkEntryRow lookup now uid ch ((entries.lookup ch).getD []) ::
      entryRowsGo lookup now entries rest (uid + 1)

/-- The full sequence of entry rows of one build:
`for ch in sorted(entries.keys())`, uids from 1. -/
def entryRows (lookup : Char → Option (List Char)) (now : Nat)
    (entries : List (Char × List Char)) : List EntryRow :=
  entryRowsGo lookup now entries
    (List.insertionSort (· ≤ ·) (entries.map Prod.fst)) 1

/-- One `INSERT` into `pleco_dict_entries`, modelling the schema's
`uid INTEGER PRIMARY KEY` and `sortkey TEXT UNIQUE` constraints: the insert
raises (SQLite `IntegrityError`) when either value collides with an existing
row; no row is ever dropped or replaced. -/
def insertEntry (tbl : List EntryRow) (r : EntryRow) : Except String (List EntryRow) :=
  if tbl.any (fun q => q.uid == r.uid || q.sortkey == r.sortkey) then
    Except.error "IntegrityError: UNIQUE constraint failed"
  else Except.ok (tbl ++ [r])

/-- The sequence of entry inserts of one build; stops at the first raised
constraint violation. -/
def insertEntries (tbl : List EntryRow) : List EntryRow → Except String (List EntryRow)
  | [] => Except.ok tbl
  | r :: rest =>
    match insertEntry tbl r with
    | Except.error e => Except.error e
    | Except.ok tbl2 => insertEntries tbl2 rest

/-- The committed on-disk state of the output database file. -/
structure DBFile where
  schemaBuilt : Bool
  rows : List EntryRow
  posdex : List PosdexRow
  importLog : List (Nat × Nat × Nat × Nat)
deriving DecidableEq

/-- The on-disk state right after the DDL: `cursor.executescript` commits the
schema immediately, before any entry is inserted. -/
def schemaOnlyDB : DBFile := ⟨true, [], [], []⟩

/-- `build_pqb`, with the modelled SQLite semantics: any pre-existing file at
the output path is unlinked, `sqlite3.connect` creates the file,
`executescript` commits the schema at once, the entry/posdex/import inserts
run inside one transaction that is rolled back when an insert raises, and
`con.commit()` publishes them.  The result is the file at the output path
(`Option DBFile`) together with the process outcome: `Except.error` is a
propagating exception, hence a non-zero exit. -/
def build_pqb (lookup : Char → Option (List Char)) (now : Nat)
    (entries : List (Char × List Char)) : Option DBFile × Except String Unit :=
  let rows := entryRows lookup now entries
  match insertEntries [] rows with
  | Except.error e => (some schemaOnlyDB, Except.error e)
  | Except.ok tbl =>
    let pos := (tbl.map (fun r => insert_posdex r.uid r.word r.pron)).flatten
    let count := rows.length
    (some ⟨true, tbl, pos, [(now, now, 1, count)]⟩, Except.ok ())

/-- `main` after argument parsing: load both tables, compose the entries,
abort with `SystemExit` (non-zero exit) before touching the filesystem when
no entry was found, else run `build_pqb`.  `fs` is the file at the output
path before the run. -/
def mainRun (lookup : Char → Option (List Char)) (now : Nat)
    (lines3 lines5 : List (List Char)) (fs : Option DBFile) :
    Option DBFile × Except String Unit :=
  let cj3 := load_cangjie_table lines3
  let cj5 := load_cangjie_table lines5
  let entries := buildEntries cj3 cj5
  if entries.isEmpty then
    (fs, Except.error "No entries found — check input file formats/paths.")
  else build_pqb lookup now entries

/-- Claim-side glyph transliteration: each lowercase Latin letter of a code
is replaced by its display glyph from the fixed 26-entry table, any other
character passes through unchanged. -/
def refGlyph (c : Char) : Char :=
  if 'a' ≤ c ∧ c ≤ 'z' then (LATIN_TO_SHAPE.lookup c).getD c else c

/-- Claim-side section: three lines joined by a single sentinel — the label
line ending in `:`, the glyph-transliterated codes joined by `" / "`, the
raw codes joined by `" / "`. -/
def refSection (label : List Char) (codes : List (List Char)) : List Char :=
  List.intercalate [PLECO_NL]
    [label ++ [':'],
     List.intercalate SLASH_SEP (codes.map (fun c => c.map refGlyph)),
     List.intercalate SLASH_SEP codes]

/-- Claim-side reference composition, on the sorted de-duplicated code
lists: one unified section labeled `Cangjie` when both lists are non-empty
and equal as sequences, otherwise one section per non-empty system, primary
first, joined by two consecutive sentinels. -/
def refComposition (s3 s5 : List (List Char)) : List Char :=
  if s3 ≠ [] ∧ s5 ≠ [] ∧ s3 = s5 then refSection "Cangjie".toList s3
  else
    List.intercalate [PLECO_NL, PLECO_NL]
      ((if s3 = [] then [] else [refSection "Cangjie3".toList s3]) ++
       (if s5 = [] then [] else [refSection "Cangjie5".toList s5]))

/-- Claim-side line-acceptance condition of the loader: after stripping, the
line is non-empty, does not start with `#`, splits into at least two
whitespace-separated tokens, and its second token is exactly one codepoint
lying in one of the eleven permitted ranges or equal to U+3007. -/
def acceptSpec (raw : List Char) : Bool :=
  let line := pyStrip raw
  let parts := splitRuns pyWhitespace line
  !line.isEmpty && !(line.head? == some '#') && decide (2 ≤ parts.length) &&
  (match parts[1]? with
   | some [c] =>
     decide (c.toNat = 0x3007) ||
     CJK_RANGES.any (fun r => decide (r.1 ≤ c.toNat) && decide (c.toNat ≤ r.2))
   | _ => false)

theorem dedupKeepFirstAux_eq_self {α : Type} [DecidableEq α] :
    ∀ (l seen : List α), l.Nodup → (∀ x ∈ l, x ∉ seen) →
      dedupKeepFirstAux l seen = l := by
  intro l
  induction l with
  | nil => intro seen _ _; rfl
  | cons a t ih =>
    intro seen hnd hsub
    have ha : a ∉ seen := hsub a (List.mem_cons_self a t)
    simp only [dedupKeepFirstAux, if_neg ha]
    rw [ih (a :: seen) (List.Nodup.of_cons hnd)]
    intro x hx
    intro hmem
    rcases List.mem_cons.mp hmem with h1 | h2
    · exact (List.nodup_cons.mp hnd).1 (h1 ▸ hx)
    · exact hsub x (List.mem_cons_of_mem a hx) h2

theorem dedupKeepFirst_eq_self {α : Type} [DecidableEq α] {l : List α}
    (h : l.Nodup) : dedupKeepFirst l = l :=
  dedupKeepFirstAux_eq_self l [] h (by intro x _ hx; exact (List.not_mem_nil x) hx)

theorem sortedCodes_perm (l : List (List Char)) : (sortedCodes l).Perm l :=
  List.perm_insertionSort (· ≤ ·) l

theorem sortedCodes_nodup {l : List (List Char)} (h : l.Nodup) :
    (sortedCodes l).Nodup :=
  (sortedCodes_perm l).symm.nodup h

theorem sortedCodes_eq_nil_iff {l : List (List Char)} :
    sortedCodes l = [] ↔ l = [] := by
  constructor
  · intro h
    have := (sortedCodes_perm l).length_eq
    rw [h] at this
    exact List.length_eq_zero.mp this.symm
  · intro h; subst h; rfl

theorem shape_keys_latin : ∀ p ∈ LATIN_TO_SHAPE, 'a' ≤ p.1 ∧ p.1 ≤ 'z' := by
  decide

theorem lookup_eq_none_of_ne {α β : Type} [BEq α] [LawfulBEq α] :
    ∀ (l : List (α × β)) (a : α), (∀ p ∈ l, p.1 ≠ a) → l.lookup a = none := by
  intro l
  induction l with
  | nil => intro a _; rfl
  | cons p t ih =>
    intro a h
    have hne : p.1 ≠ a := h p (List.mem_cons_self p t)
    have hb : (a == p.1) = false := beq_eq_false_iff_ne.mpr (Ne.symm hne)
    simp only [List.lookup, hb]
    exact ih a (fun q hq => h q (List.mem_cons_of_mem p hq))

theorem shapeOf_eq_refGlyph (c : Char) : shapeOf c = refGlyph c := by
  unfold shapeOf refGlyph
  by_cases h : 'a' ≤ c ∧ c ≤ 'z'
  · rw [if_pos h]
  · rw [if_neg h]
    rw [lookup_eq_none_of_ne LATIN_TO_SHAPE c]
    · rfl
    · intro p hp heq
      exact h (heq ▸ shape_keys_latin p hp)

theorem latin_code_to_shapes_eq (code : List Char) :
    latin_code_to_shapes code = code.map refGlyph := by
  unfold latin_code_to_shapes
  exact List.map_congr_left (fun c _ => shapeOf_eq_refGlyph c)

theorem intercalate_three (s a b c : List Char) :
    List.intercalate s [a, b, c] = a ++ s ++ b ++ s ++ c := by
  simp [List.intercalate, List.intersperse]

theorem format_section_eq_refSection (label : List Char)
    {codes : List (List Char)} (h : codes.Nodup) :
    format_section label codes = refSection label codes := by
  unfold format_section refSection
  simp only [dedupKeepFirst_eq_self h]
  rw [intercalate_three]
  rw [show List.map latin_code_to_shapes codes = List.map (fun c => List.map refGlyph c) codes
        from List.map_congr_left (fun c _ => latin_code_to_shapes_eq c)]

theorem section_ite_congr (lbl : List Char) {z : List (List Char)} (h : z.Nodup) :
    (if z = [] then ([] : List (List Char)) else [format_section lbl z]) =
    (if z = [] then [] else [refSection lbl z]) := by
  by_cases hz : z = []
  · rw [if_pos hz, if_pos hz]
  · rw [if_neg hz, if_neg hz, format_section_eq_refSection lbl h]

/-- C1: for every character with at least one code in either system, the
composed definition equals the reference composition — a single unified
`Cangjie` section when the two sorted de-duplicated code lists are
non-empty and equal, otherwise one section per non-empty system (primary
first) joined by a double sentinel, each section being the three
sentinel-joined lines with glyph transliteration through the fixed
26-entry table. -/
theorem composeDefn_eq_refComposition (c3 c5 : List (List Char))
    (h3 : c3.Nodup) (h5 : c5.Nodup) (hne : c3 ≠ [] ∨ c5 ≠ []) :
    composeDefn c3 c5 = some (refComposition (sortedCodes c3) (sortedCodes c5)) := by
  have nd3 : (sortedCodes c3).Nodup := sortedCodes_nodup h3
  have nd5 : (sortedCodes c5).Nodup := sortedCodes_nodup h5
  have hboth : ¬(sortedCodes c3 = [] ∧ sortedCodes c5 = []) := by
    rintro ⟨e3, e5⟩
    rcases hne with hne | hne
    · exact hne (sortedCodes_eq_nil_iff.mp e3)
    · exact hne (sortedCodes_eq_nil_iff.mp e5)
  unfold composeDefn refComposition
  rw [if_neg hboth]
  by_cases heq : sortedCodes c3 = sortedCodes c5
  · have ne3 : sortedCodes c3 ≠ [] := by
      intro e3
      exact hboth ⟨e3, heq ▸ e3⟩
    have ne5 : sortedCodes c5 ≠ [] := heq ▸ ne3
    rw [if_pos heq, if_pos ⟨ne3, ne5, heq⟩]
    rw [format_section_eq_refSection _ nd3]
  · have hcond : ¬(sortedCodes c3 ≠ [] ∧ sortedCodes c5 ≠ [] ∧
        sortedCodes c3 = sortedCodes c5) := fun h => heq h.2.2
    rw [if_neg heq, if_neg hcond]
    rw [section_ite_congr "Cangjie3".toList nd3, section_ite_congr "Cangjie5".toList nd5]

theorem composeDefn_eq_refComposition_witness :
    ([['a']] : List (List Char)).Nodup ∧
    composeDefn [['a']] [] = some (refComposition (sortedCodes [['a']]) (sortedCodes [])) :=
  ⟨by decide,
   composeDefn_eq_refComposition [['a']] [] (by decide) (by decide) (Or.inl (by decide))⟩

theorem toNat_fullwidth_char (c : Char) :
    (if 0x21 ≤ c.toNat ∧ c.toNat ≤ 0x7E then Char.ofNat (c.toNat + 0xFEE0) else c).toNat =
    (if 0x21 ≤ c.toNat ∧ c.toNat ≤ 0x7E then c.toNat + 0xFEE0 else c.toNat) := by
  by_cases h : 0x21 ≤ c.toNat ∧ c.toNat ≤ 0x7E
  · rw [if_pos h, if_pos h]
    have hv : Nat.isValidChar (c.toNat + 0xFEE0) := Or.inr ⟨by omega, by omega⟩
    rw [Char.ofNat, dif_pos hv]
    simp [Char.ofNatAux, Char.toNat, UInt32.toNat, UInt32.ofNat']
  · rw [if_neg h, if_neg h]

/-- C2: for a single-character entry the stored sort key is the full-width
transform of its (umlaut-substituted) phonetic syllable followed by the
character itself; the full-width transform shifts exactly the codepoints in
[0x21, 0x7E] by 0xFEE0 and leaves every other character unchanged; and when
the transcription lookup yields no syllable the sort key degrades to the
bare character. -/
theorem sortkey_single_char (lookup : Char → Option (List Char)) (ch : Char) :
    sortkeyOf lookup ch = to_fullwidth_ascii (replaceUmlaut ((lookup ch).getD [])) ++ [ch] ∧
    (lookup ch = none → sortkeyOf lookup ch = [ch]) ∧
    (∀ (s : List Char) (i : Nat),
      ((to_fullwidth_ascii s)[i]?).map Char.toNat =
        (s[i]?).map (fun c =>
          if 0x21 ≤ c.toNat ∧ c.toNat ≤ 0x7E then c.toNat + 0xFEE0 else c.toNat)) := by
  have key : sortkeyOf lookup ch =
      to_fullwidth_ascii (replaceUmlaut ((lookup ch).getD [])) ++ [ch] := by
    unfold sortkeyOf make_sortkey mandarin_pinyin_tone3
    simp
  refine ⟨key, ?_, ?_⟩
  · intro h
    rw [key, h]
    rfl
  · intro s i
    unfold to_fullwidth_ascii
    rw [List.getElem?_map]
    cases s[i]? with
    | none => rfl
    | some c => simp [toNat_fullwidth_char c]

theorem sortkey_single_char_witness :
    sortkeyOf (fun _ => none) '一' = ['一'] :=
  (sortkey_single_char (fun _ => none) '一').2.1 rfl

theorem tagIdx_getElem? (fam : Fam) (uid wlen : Nat) :
    ∀ (ts : List (List Char)) (k j : Nat),
      (tagIdx fam uid wlen k ts)[j]? =
        (ts[j]?).map (fun t => (⟨fam, k + j, t, uid, wlen⟩ : PosdexRow)) := by
  intro ts
  induction ts with
  | nil => intro k j; simp [tagIdx]
  | cons t ts ih =>
    intro k j
    cases j with
    | zero => simp [tagIdx]
    | succ j =>
      have harith : (k + 1) + j = k + (j + 1) := by omega
      simp only [tagIdx, List.getElem?_cons_succ, ih (k + 1) j, harith]

theorem tagIdx_length (fam : Fam) (uid wlen : Nat) :
    ∀ (ts : List (List Char)) (k : Nat), (tagIdx fam uid wlen k ts).length = ts.length := by
  intro ts
  induction ts with
  | nil => intro k; rfl
  | cons t ts ih => intro k; simp [tagIdx, ih (k + 1)]

theorem tagIdx_mem (fam : Fam) (uid wlen : Nat) :
    ∀ (ts : List (List Char)) (k : Nat) (r : PosdexRow), r ∈ tagIdx fam uid wlen k ts →
      r.fam = fam ∧ r.uid = uid ∧ r.length = wlen := by
  intro ts
  induction ts with
  | nil => intro k r h; exact absurd h (List.not_mem_nil r)
  | cons t ts ih =>
    intro k r h
    rcases List.mem_cons.mp h with h1 | h2
    · subst h1; exact ⟨rfl, rfl, rfl⟩
    · exact ih (k + 1) r h2

theorem posdex_filter_hz (uid : Nat) (word pron : List Char) :
    (insert_posdex uid word pron).filter (fun r => decide (r.fam = Fam.hz)) =
      tagIdx Fam.hz uid word.length 1 ((word.take 4).map (fun ch => [ch])) := by
  unfold insert_posdex
  rw [List.filter_append]
  rw [List.filter_eq_self.mpr (by
    intro r hr
    rw [(tagIdx_mem Fam.hz uid word.length _ 1 r hr).1]
    exact decide_eq_true rfl)]
  rw [show (tagIdx Fam.py uid word.length 1 ((split_pron_tokens pron).take 4)).filter
        (fun r => decide (r.fam = Fam.hz)) = [] from List.filter_eq_nil_iff.mpr (by
    intro r hr
    rw [(tagIdx_mem Fam.py uid word.length _ 1 r hr).1]
    decide)]
  rw [List.append_nil]

theorem posdex_filter_py (uid : Nat) (word pron : List Char) :
    (insert_posdex uid word pron).filter (fun r => decide (r.fam = Fam.py)) =
      tagIdx Fam.py uid word.length 1 ((split_pron_tokens pron).take 4) := by
  unfold insert_posdex
  rw [List.filter_append]
  rw [show (tagIdx Fam.hz uid word.length 1 ((word.take 4).map (fun ch => [ch]))).filter
        (fun r => decide (r.fam = Fam.py)) = [] from List.filter_eq_nil_iff.mpr (by
    intro r hr
    rw [(tagIdx_mem Fam.hz uid word.length _ 1 r hr).1]
    decide)]
  rw [List.filter_eq_self.mpr (by
    intro r hr
    rw [(tagIdx_mem Fam.py uid word.length _ 1 r hr).1]
    exact decide_eq_true rfl)]
  rw [List.nil_append]

/-- C6: per entry at most 4 index rows per family are emitted; the hz rows
are exactly the first four codepoints of the word at their 1-based
positions, the py rows exactly the first four pronunciation tokens at their
1-based positions, and every row carries the entry's uid and full length. -/
theorem insert_posdex_spec (uid : Nat) (word pron : List Char) :
    ((insert_posdex uid word pron).filter (fun r => decide (r.fam = Fam.hz))).length ≤ 4 ∧
    ((insert_posdex uid word pron).filter (fun r => decide (r.fam = Fam.py))).length ≤ 4 ∧
    (∀ i : Nat, i < 4 →
      ((insert_posdex uid word pron).filter (fun r => decide (r.fam = Fam.hz)))[i]? =
        (word[i]?).map (fun c => (⟨Fam.hz, i + 1, [c], uid, word.length⟩ : PosdexRow))) ∧
    (∀ i : Nat, 4 ≤ i →
      ((insert_posdex uid word pron).filter (fun r => decide (r.fam = Fam.hz)))[i]? = none) ∧
    (∀ i : Nat, i < 4 →
      ((insert_posdex uid word pron).filter (fun r => decide (r.fam = Fam.py)))[i]? =
        ((split_pron_tokens pron)[i]?).map
          (fun t => (⟨Fam.py, i + 1, t, uid, word.length⟩ : PosdexRow))) ∧
    (∀ i : Nat, 4 ≤ i →
      ((insert_posdex uid word pron).filter (fun r => decide (r.fam = Fam.py)))[i]? = none) ∧
    (∀ r ∈ insert_posdex uid word pron, r.uid = uid ∧ r.length = word.length) := by
  rw [posdex_filter_hz, posdex_filter_py]
  refine ⟨?_, ?_, ?_, ?_, ?_, ?_, ?_⟩
  · rw [tagIdx_length]
    simp only [List.length_map, List.length_take]
    omega
  · rw [tagIdx_length]
    simp only [List.length_take]
    omega
  · intro i hi
    rw [tagIdx_getElem?, List.getElem?_map, List.getElem?_take, if_pos hi]
    cases word[i]? with
    | none => rfl
    | some c => simp [Nat.add_comm 1 i]
  · intro i hi
    apply List.getElem?_eq_none
    rw [tagIdx_length]
    simp only [List.length_map, List.length_take]
    omega
  · intro i hi
    rw [tagIdx_getElem?, List.getElem?_take, if_pos hi]
    cases (split_pron_tokens pron)[i]? with
    | none => rfl
    | some t => simp [Nat.add_comm 1 i]
  · intro i hi
    apply List.getElem?_eq_none
    rw [tagIdx_length]
    simp only [List.length_take]
    omega
  · intro r hr
    unfold insert_posdex at hr
    rcases List.mem_append.mp hr with h1 | h2
    · exact (tagIdx_mem Fam.hz uid word.length _ 1 r h1).2
    · exact (tagIdx_mem Fam.py uid word.length _ 1 r h2).2

theorem insert_posdex_spec_witness :
    ((insert_posdex 7 ['日', '月'] []).filter (fun r => decide (r.fam = Fam.hz)))[0]? =
      ((['日', '月'] : List Char)[0]?).map
        (fun c => (⟨Fam.hz, 0 + 1, [c], 7, (['日', '月'] : List Char).length⟩ : PosdexRow)) :=
  (insert_posdex_spec 7 ['日', '月'] []).2.2.1 0 (by decide)

theorem mem_pushTok {acc : List Char} {toks : List (List Char)}
    {t : List Char} (ht : t ∈ pushTok acc toks) :
    (t = acc.reverse ∧ acc ≠ []) ∨ t ∈ toks := by
  unfold pushTok at ht
  by_cases he : acc.isEmpty
  · rw [if_pos he] at ht; exact Or.inr ht
  · rw [if_neg he] at ht
    rcases List.mem_cons.mp ht with h1 | h2
    · exact Or.inl ⟨h1, fun hn => he (by rw [hn]; rfl)⟩
    · exact Or.inr h2

theorem splitRunsAux_tokens (sep : Char → Bool) :
    ∀ (l acc : List Char), (∀ c ∈ acc, sep c = false) →
      ∀ t ∈ splitRunsAux sep l acc, t ≠ [] ∧ ∀ c ∈ t, sep c = false := by
  intro l
  induction l with
  | nil =>
    intro acc hacc t ht
    unfold splitRunsAux at ht
    rcases mem_pushTok ht with ⟨h1, h2⟩ | h2
    · subst h1
      refine ⟨fun hr => h2 (List.reverse_eq_nil_iff.mp hr), ?_⟩
      intro c hc
      exact hacc c (List.mem_reverse.mp hc)
    · exact absurd h2 (List.not_mem_nil t)
  | cons a l ih =>
    intro acc hacc t ht
    unfold splitRunsAux at ht
    by_cases hs : sep a
    · rw [if_pos hs] at ht
      rcases mem_pushTok ht with ⟨h1, h2⟩ | h2
      · subst h1
        refine ⟨fun hr => h2 (List.reverse_eq_nil_iff.mp hr), ?_⟩
        intro c hc
        exact hacc c (List.mem_reverse.mp hc)
      · exact ih [] (fun c hc => absurd hc (List.not_mem_nil c)) t h2
    · rw [if_neg hs] at ht
      refine ih (a :: acc) ?_ t ht
      intro c hc
      rcases List.mem_cons.mp hc with h1 | h2
      · subst h1; exact Bool.eq_false_iff.mpr hs
      · exact hacc c h2

theorem splitRuns_tokens (sep : Char → Bool) (l : List Char) :
    ∀ t ∈ splitRuns sep l, t ≠ [] ∧ ∀ c ∈ t, sep c = false :=
  splitRunsAux_tokens sep l [] (fun c hc => absurd hc (List.not_mem_nil c))

theorem dropWhile_eq_self_of {p : Char → Bool} {t : List Char}
    (h : ∀ c ∈ t, p c = false) : t.dropWhile p = t := by
  cases t with
  | nil => rfl
  | cons c ts =>
    rw [List.dropWhile_cons, if_neg]
    rw [h c (List.mem_cons_self c ts)]
    simp

theorem pyStrip_eq_self {t : List Char} (h : ∀ c ∈ t, pyWhitespace c = false) :
    pyStrip t = t := by
  unfold pyStrip
  rw [dropWhile_eq_self_of h]
  rw [dropWhile_eq_self_of (fun c hc => h c (List.mem_reverse.mp hc))]
  exact List.reverse_reverse t

theorem is_cjk_word_singleton (c : Char) :
    is_cjk_word [c] =
      (decide (c.toNat = 0x3007) ||
       CJK_RANGES.any (fun r => decide (r.1 ≤ c.toNat) && decide (c.toNat ≤ r.2))) := by
  unfold is_cjk_word EXTRA_ALLOWED
  by_cases hc : c.toNat = 0x3007 <;> simp [hc]

theorem parseLine_isSome_eq (raw : List Char) :
    (parseLine raw).isSome = acceptSpec raw := by
  unfold parseLine acceptSpec
  by_cases hemp : (pyStrip raw).isEmpty
  · simp [hemp]
  · by_cases hhash : (pyStrip raw).head? = some '#'
    · simp [hemp, hhash]
    · have hhashb : ((pyStrip raw).head? == some '#') = false := by
        rw [beq_eq_false_iff_ne]
        exact hhash
      cases hparts : splitRuns pyWhitespace (pyStrip raw) with
      | nil => simp [hemp, hhash, hhashb, hparts]
      | cons p0 tail =>
        cases tail with
        | nil => simp [hemp, hhash, hhashb, hparts]
        | cons p1 rest =>
          have h0 := splitRuns_tokens pyWhitespace (pyStrip raw) p0
            (hparts ▸ List.mem_cons_self p0 (p1 :: rest))
          have h1 := splitRuns_tokens pyWhitespace (pyStrip raw) p1
            (hparts ▸ List.mem_cons_of_mem p0 (List.mem_cons_self p1 rest))
          have h0e : p0.isEmpty = false := by
            cases hp : p0 with
            | nil => exact absurd hp h0.1
            | cons x xs => rfl
          have h1e : p1.isEmpty = false := by
            cases hp : p1 with
            | nil => exact absurd hp h1.1
            | cons x xs => rfl
          cases hp1 : p1 with
          | nil => exact absurd hp1 h1.1
          | cons c cs =>
            subst hp1
            cases cs with
            | nil =>
              cases hcjk : is_cjk_word [c] with
              | true =>
                simp [hemp, hhash, hhashb, hparts, pyStrip_eq_self h0.2,
                      pyStrip_eq_self h1.2, h0e, h1e, hcjk, ← is_cjk_word_singleton]
              | false =>
                simp [hemp, hhash, hhashb, hparts, pyStrip_eq_self h0.2,
                      pyStrip_eq_self h1.2, h0e, h1e, hcjk, ← is_cjk_word_singleton]
            | cons c2 cs2 =>
              simp [hemp, hhash, hhashb, hparts, pyStrip_eq_self h0.2,
                    pyStrip_eq_self h1.2, h0e, h1e]

/-- C7: a line is accepted into the code table iff, after the BOM strip and
stripping surrounding whitespace, it is non-empty, does not start with `#`,
splits into at least two whitespace tokens, and its second token is exactly
one codepoint in the eleven permitted ranges or the exception U+3007;
every other line is silently skipped, and a fully empty or totally
malformed file yields an empty mapping with no error raised. -/
theorem loader_line_acceptance :
    (∀ raw : List Char, (parseLine raw).isSome = acceptSpec raw) ∧
    loadLines [] = [] ∧
    (∀ lines : List (List Char), (∀ l ∈ lines, acceptSpec l = false) →
      loadLines lines = []) := by
  refine ⟨parseLine_isSome_eq, rfl, ?_⟩
  intro lines
  induction lines with
  | nil => intro _; rfl
  | cons l ls ih =>
    intro h
    have hnone : parseLine l = none := by
      have hs := parseLine_isSome_eq l
      rw [h l (List.mem_cons_self l ls)] at hs
      cases hl : parseLine l with
      | none => rfl
      | some v => rw [hl] at hs; exact absurd hs (by simp)
    have hstep : loadLines (l :: ls) = loadLines ls := by
      unfold loadLines
      rw [List.foldl_cons, hnone]
    rw [hstep]
    exact ih (fun x hx => h x (List.mem_cons_of_mem l hx))

theorem loader_line_acceptance_witness :
    loadLines ["# comment".toList, "onlyonetoken".toList, "zz 好好".toList] = [] :=
  loader_line_acceptance.2.2
    ["# comment".toList, "onlyonetoken".toList, "zz 好好".toList] (by decide)

/-- C9: when the two input tables together yield zero qualifying
characters, the run aborts with the `SystemExit` diagnostic (a non-zero
exit) before any artifact is created: the filesystem is left untouched, so
no output file exists at the target path after the abort. -/
theorem empty_input_aborts (lookup : Char → Option (List Char)) (now : Nat)
    (lines3 lines5 : List (List Char)) (fs : Option DBFile)
    (h : buildEntries (load_cangjie_table lines3) (load_cangjie_table lines5) = []) :
    mainRun lookup now lines3 lines5 fs =
      (fs, Except.error "No entries found — check input file formats/paths.") ∧
    (mainRun lookup now lines3 lines5 none).1 = none := by
  constructor <;> simp [mainRun, h]

theorem empty_input_aborts_witness :
    mainRun (fun _ => none) 0 [] [] none =
      (none, Except.error "No entries found — check input file formats/paths.") :=
  (empty_input_aborts (fun _ => none) 0 [] [] none rfl).1

/-- C10: an entry whose character has no derivable pinyin transcription is
stored with an empty pron, gets zero `posdex_py` rows, and still gets its
single `posdex_hz_1` row — the character itself with length 1 — so it is
reachable by character-position search but not by syllable-position
search. -/
theorem no_pinyin_entry (lookup : Char → Option (List Char)) (now uid : Nat)
    (ch : Char) (defn : List Char) (h : lookup ch = none) :
    (mkEntryRow lookup now uid ch defn).pron = [] ∧
    (insert_posdex uid (mkEntryRow lookup now uid ch defn).word
        (mkEntryRow lookup now uid ch defn).pron).filter
      (fun r => decide (r.fam = Fam.py)) = [] ∧
    (insert_posdex uid (mkEntryRow lookup now uid ch defn).word
        (mkEntryRow lookup now uid ch defn).pron).filter
      (fun r => decide (r.fam = Fam.hz)) =
      [⟨Fam.hz, 1, [ch], uid, 1⟩] := by
  have hpron : (mkEntryRow lookup now uid ch defn).pron = [] := by
    unfold mkEntryRow mandarin_pinyin_tone3
    simp only [List.map]
    rw [h]
    rfl
  refine ⟨hpron, ?_, ?_⟩
  · rw [hpron, posdex_filter_py]
    rfl
  · rw [hpron, posdex_filter_hz]
    rfl

theorem no_pinyin_entry_witness :
    (mkEntryRow (fun _ => none) 0 3 '一' []).pron = [] :=
  (no_pinyin_entry (fun _ => none) 0 3 '一' [] rfl).1

/-- C5 counterexample: for the input file with lines `b 日` then `a 日`, the
first-encountered code order of `日` is `b, a`, but the composed definition
presents the codes in sorted order `a, b`, which differs from the section
built in first-encountered order — so the composed output does not preserve
first-encountered order. -/
theorem codes_not_first_encountered :
    tableGet (load_cangjie_table ["b 日".toList, "a 日".toList]) '日' = [['b'], ['a']] ∧
    composeDefn (tableGet (load_cangjie_table ["b 日".toList, "a 日".toList]) '日') [] =
      some (refSection "Cangjie3".toList [['a'], ['b']]) ∧
    refSection "Cangjie3".toList [['a'], ['b']] ≠
      refSection "Cangjie3".toList [['b'], ['a']] :=
  ⟨by decide, by decide, by decide⟩

/-- C5 (amended): for every character and code system, the codes appearing
in the composed definition are the system's distinct codes in ascending
lexicographic order of the code strings — an order that is stable and
independent of the loader's internal collection iteration order (the
composition is invariant under permutation of each code set), but that is
the sorted order, not the first-encountered order. -/
theorem composeDefn_sorted_perm_invariant (c3 c5 c3' c5' : List (List Char))
    (h3 : c3.Perm c3') (h5 : c5.Perm c5') :
    composeDefn c3 c5 = composeDefn c3' c5' ∧
    List.Sorted (· ≤ ·) (sortedCodes c3) ∧ (sortedCodes c3).Perm c3 := by
  have key : ∀ a b : List (List Char), a.Perm b → sortedCodes a = sortedCodes b := by
    intro a b hab
    exact List.eq_of_perm_of_sorted
      ((sortedCodes_perm a).trans (hab.trans (sortedCodes_perm b).symm))
      (List.sorted_insertionSort _ a) (List.sorted_insertionSort _ b)
  refine ⟨?_, List.sorted_insertionSort _ c3, sortedCodes_perm c3⟩
  unfold composeDefn
  rw [key c3 c3' h3, key c5 c5' h5]

theorem composeDefn_sorted_perm_invariant_witness :
    composeDefn [['b'], ['a']] [] = composeDefn [['a'], ['b']] [] :=
  (composeDefn_sorted_perm_invariant [['b'], ['a']] [] [['a'], ['b']] []
    (by decide) (List.Perm.refl [])).1

theorem insertEntry_ok {tbl : List EntryRow} {r : EntryRow} {res : List EntryRow}
    (h : insertEntry tbl r = Except.ok res) :
    res = tbl ++ [r] ∧ ∀ q ∈ tbl, q.uid ≠ r.uid ∧ q.sortkey ≠ r.sortkey := by
  unfold insertEntry at h
  by_cases hc : tbl.any (fun q => q.uid == r.uid || q.sortkey == r.sortkey)
  · rw [if_pos hc] at h
    exact absurd h (by simp)
  · rw [if_neg hc] at h
    refine ⟨by injection h with h2; exact h2.symm, ?_⟩
    intro q hq
    rw [List.any_eq_true] at hc
    push_neg at hc
    have hfalse : (q.uid == r.uid || q.sortkey == r.sortkey) = false :=
      Bool.eq_false_iff.mpr (hc q hq)
    rw [Bool.or_eq_false_iff] at hfalse
    exact ⟨beq_eq_false_iff_ne.mp hfalse.1, beq_eq_false_iff_ne.mp hfalse.2⟩

theorem insertEntries_ok_eq :
    ∀ (rows tbl res : List EntryRow),
      insertEntries tbl rows = Except.ok res → res = tbl ++ rows := by
  intro rows
  induction rows with
  | nil =>
    intro tbl res h
    injection h with h2
    rw [← h2, List.append_nil]
  | cons r rest ih =>
    intro tbl res h
    unfold insertEntries at h
    cases hi : insertEntry tbl r with
    | error e => rw [hi] at h; exact absurd h (by simp)
    | ok tbl2 =>
      rw [hi] at h
      have h2 := ih tbl2 res h
      rw [h2, (insertEntry_ok hi).1, List.append_assoc]
      rfl

theorem insertEntries_ok_pairwise :
    ∀ (rows tbl res : List EntryRow),
      tbl.Pairwise (fun a b => a.sortkey ≠ b.sortkey) →
      insertEntries tbl rows = Except.ok res →
      res.Pairwise (fun a b => a.sortkey ≠ b.sortkey) := by
  intro rows
  induction rows with
  | nil =>
    intro tbl res hp h
    injection h with h2
    exact h2 ▸ hp
  | cons r rest ih =>
    intro tbl res hp h
    unfold insertEntries at h
    cases hi : insertEntry tbl r with
    | error e => rw [hi] at h; exact absurd h (by simp)
    | ok tbl2 =>
      rw [hi] at h
      rcases insertEntry_ok hi with ⟨h2, hnc⟩
      refine ih tbl2 res ?_ h
      rw [h2, List.pairwise_append]
      refine ⟨hp, List.pairwise_singleton _ r, ?_⟩
      intro a ha b hb
      rw [List.mem_singleton.mp hb]
      exact (hnc a ha).2

theorem insertEntries_ok_of :
    ∀ (rows tbl : List EntryRow),
      (∀ r ∈ rows, ∀ q ∈ tbl, q.uid ≠ r.uid ∧ q.sortkey ≠ r.sortkey) →
      rows.Pairwise (fun a b => a.uid ≠ b.uid ∧ a.sortkey ≠ b.sortkey) →
      insertEntries tbl rows = Except.ok (tbl ++ rows) := by
  intro rows
  induction rows with
  | nil => intro tbl _ _; rw [List.append_nil]; rfl
  | cons r rest ih =>
    intro tbl hcross hpw
    have hok : insertEntry tbl r = Except.ok (tbl ++ [r]) := by
      unfold insertEntry
      rw [if_neg]
      intro hc
      rw [List.any_eq_true] at hc
      rcases hc with ⟨q, hq, hqc⟩
      rcases hcross r (List.mem_cons_self r rest) q hq with ⟨hu, hs⟩
      rw [Bool.or_eq_true] at hqc
      rcases hqc with hqc | hqc
      · exact hu (beq_iff_eq.mp hqc)
      · exact hs (beq_iff_eq.mp hqc)
    have hstep := ih (tbl ++ [r])
      (by
        intro r2 hr2 q hq
        rcases List.mem_append.mp hq with hq1 | hq1
        · exact hcross r2 (List.mem_cons_of_mem r hr2) q hq1
        · rw [List.mem_singleton.mp hq1]
          exact (List.pairwise_cons.mp hpw).1 r2 hr2)
      (List.pairwise_cons.mp hpw).2
    unfold insertEntries
    rw [hok]
    show insertEntries (tbl ++ [r]) rest = Except.ok (tbl ++ r :: rest)
    rw [hstep, List.append_assoc]
    rfl

/-- C4: the store-level uniqueness constraint makes a sort-key collision
between two distinct rows fail loudly — the insert sequence raises instead
of dropping or overwriting anything — so a successfully committed build
contains exactly the computed rows, with pairwise distinct sort keys. -/
theorem sortkey_collision_fatal :
    (∀ (rows : List EntryRow) (r1 r2 : EntryRow), r1 ∈ rows → r2 ∈ rows → r1 ≠ r2 →
      r1.sortkey = r2.sortkey → ∃ e, insertEntries [] rows = Except.error e) ∧
    (∀ (rows res : List EntryRow), insertEntries [] rows = Except.ok res →
      res = rows ∧ res.Pairwise (fun a b => a.sortkey ≠ b.sortkey)) ∧
    (∀ (lookup : Char → Option (List Char)) (now : Nat)
        (entries : List (Char × List Char)) (db : Option DBFile),
      build_pqb lookup now entries = (db, Except.ok ()) →
      ∃ dbf : DBFile, db = some dbf ∧ dbf.rows = entryRows lookup now entries ∧
        dbf.rows.Pairwise (fun a b => a.sortkey ≠ b.sortkey)) := by
  have part2 : ∀ (rows res : List EntryRow), insertEntries [] rows = Except.ok res →
      res = rows ∧ res.Pairwise (fun a b => a.sortkey ≠ b.sortkey) := by
    intro rows res h
    refine ⟨by rw [insertEntries_ok_eq rows [] res h]; rfl, ?_⟩
    exact insertEntries_ok_pairwise rows [] res (List.Pairwise.nil) h
  refine ⟨?_, part2, ?_⟩
  · intro rows r1 r2 h1 h2 hne hsk
    cases hres : insertEntries [] rows with
    | error e => exact ⟨e, rfl⟩
    | ok res =>
      rcases part2 rows res hres with ⟨heq, hpw⟩
      subst heq
      have hsym : Symmetric (fun a b : EntryRow => a.sortkey ≠ b.sortkey) :=
        fun a b hab => fun hba => hab hba.symm
      exact absurd hsk (hpw.forall hsym h1 h2 hne)
  · intro lookup now entries db h
    simp only [build_pqb] at h
    cases hres : insertEntries [] (entryRows lookup now entries) with
    | error e =>
      rw [hres] at h
      have h2 := congrArg Prod.snd h
      exact absurd h2 (by simp)
    | ok tbl =>
      rw [hres] at h
      have h3 : (some (⟨true, tbl,
          (tbl.map (fun r => insert_posdex r.uid r.word r.pron)).flatten,
          [(now, now, 1, (entryRows lookup now entries).length)]⟩ : DBFile),
          (Except.ok () : Except String Unit)) = (db, Except.ok ()) := h
      injection h3 with h1 h2
      rcases part2 _ tbl hres with ⟨heq, hpw⟩
      exact ⟨_, h1.symm, heq, hpw⟩

theorem sortkey_collision_fatal_witness :
    ∃ e, insertEntries []
      [⟨1, 0, 0, 1, ['一'], none, [], [], ['一']⟩,
       ⟨2, 0, 0, 1, ['二'], none, [], [], ['一']⟩] = Except.error e :=
  sortkey_collision_fatal.1
    [⟨1, 0, 0, 1, ['一'], none, [], [], ['一']⟩,
     ⟨2, 0, 0, 1, ['二'], none, [], [], ['一']⟩]
    ⟨1, 0, 0, 1, ['一'], none, [], [], ['一']⟩
    ⟨2, 0, 0, 1, ['二'], none, [], [], ['一']⟩
    (by decide) (by decide) (by decide) rfl

theorem sortkeyOf_concat (lookup : Char → Option (List Char)) (ch : Char) :
    sortkeyOf lookup ch =
      to_fullwidth_ascii (replaceUmlaut ((lookup ch).getD [])) ++ [ch] := by
  unfold sortkeyOf make_sortkey mandarin_pinyin_tone3
  simp

theorem sortkeyOf_inj (lookup : Char → Option (List Char)) {a b : Char}
    (h : sortkeyOf lookup a = sortkeyOf lookup b) : a = b := by
  rw [sortkeyOf_concat, sortkeyOf_concat] at h
  have h2 := congrArg List.getLast? h
  rw [List.getLast?_concat, List.getLast?_concat] at h2
  exact Option.some.inj h2

theorem entryRowsGo_length (lookup : Char → Option (List Char)) (now : Nat)
    (entries : List (Char × List Char)) :
    ∀ (ks : List Char) (u : Nat), (entryRowsGo lookup now entries ks u).length = ks.length := by
  intro ks
  induction ks with
  | nil => intro u; rfl
  | cons ch rest ih => intro u; simp [entryRowsGo, ih (u + 1)]

theorem entryRowsGo_map_uid (lookup : Char → Option (List Char)) (now : Nat)
    (entries : List (Char × List Char)) :
    ∀ (ks : List Char) (u : Nat),
      (entryRowsGo lookup now entries ks u).map EntryRow.uid = List.range' u ks.length := by
  intro ks
  induction ks with
  | nil => intro u; rfl
  | cons ch rest ih =>
    intro u
    show EntryRow.uid (mkEntryRow lookup now u ch _) ::
      (entryRowsGo lookup now entries rest (u + 1)).map EntryRow.uid =
      List.range' u (rest.length + 1)
    rw [List.range'_succ, ih (u + 1)]
    rfl

theorem entryRowsGo_map_word (lookup : Char → Option (List Char)) (now : Nat)
    (entries : List (Char × List Char)) :
    ∀ (ks : List Char) (u : Nat),
      (entryRowsGo lookup now entries ks u).map EntryRow.word =
        ks.map (fun c => [c]) := by
  intro ks
  induction ks with
  | nil => intro u; rfl
  | cons ch rest ih =>
    intro u
    show EntryRow.word (mkEntryRow lookup now u ch _) ::
      (entryRowsGo lookup now entries rest (u + 1)).map EntryRow.word = [ch] :: rest.map _
    rw [ih (u + 1)]
    rfl

theorem entryRowsGo_map_sortkey (lookup : Char → Option (List Char)) (now : Nat)
    (entries : List (Char × List Char)) :
    ∀ (ks : List Char) (u : Nat),
      (entryRowsGo lookup now entries ks u).map EntryRow.sortkey =
        ks.map (fun c => sortkeyOf lookup c) := by
  intro ks
  induction ks with
  | nil => intro u; rfl
  | cons ch rest ih =>
    intro u
    show EntryRow.sortkey (mkEntryRow lookup now u ch _) ::
      (entryRowsGo lookup now entries rest (u + 1)).map EntryRow.sortkey =
      sortkeyOf lookup ch :: rest.map _
    rw [ih (u + 1)]
    rfl

theorem entryRows_pairwise (lookup : Char → Option (List Char)) (now : Nat)
    (entries : List (Char × List Char)) (hnd : (entries.map Prod.fst).Nodup) :
    (entryRows lookup now entries).Pairwise
      (fun a b => a.uid ≠ b.uid ∧ a.sortkey ≠ b.sortkey) := by
  have hksnd : (List.insertionSort (· ≤ ·) (entries.map Prod.fst)).Nodup :=
    (List.perm_insertionSort _ _).symm.nodup hnd
  have hu : (entryRows lookup now entries).Pairwise (fun a b => a.uid ≠ b.uid) := by
    have h1 : ((entryRows lookup now entries).map EntryRow.uid).Nodup := by
      unfold entryRows
      rw [entryRowsGo_map_uid]
      exact List.nodup_range' _ _
    exact List.pairwise_map.mp h1
  have hs : (entryRows lookup now entries).Pairwise
      (fun a b => a.sortkey ≠ b.sortkey) := by
    have h1 : ((entryRows lookup now entries).map EntryRow.sortkey).Nodup := by
      unfold entryRows
      rw [entryRowsGo_map_sortkey]
      exact hksnd.map (fun a b hab => sortkeyOf_inj lookup hab)
    exact List.pairwise_map.mp h1
  exact hu.and hs

theorem lookup_perm {α β : Type} [BEq α] [LawfulBEq α] :
    ∀ {l₁ l₂ : List (α × β)}, l₁.Perm l₂ → (l₁.map Prod.fst).Nodup →
      ∀ a, l₁.lookup a = l₂.lookup a := by
  intro l₁ l₂ hp
  induction hp with
  | nil => intro _ _; rfl
  | cons x h ih =>
    intro hnd a
    simp only [List.lookup]
    cases hax : a == x.1 with
    | true => rfl
    | false => exact ih (List.nodup_cons.mp hnd).2 a
  | swap x y l =>
    intro hnd a
    have hxy : y.1 ≠ x.1 := by
      have h1 := (List.nodup_cons.mp hnd).1
      intro he
      exact h1 (he ▸ List.mem_cons_self _ _)
    cases hay : a == y.1 with
    | true =>
      cases hax : a == x.1 with
      | true =>
        exfalso
        exact hxy ((beq_iff_eq.mp hay).symm.trans (beq_iff_eq.mp hax))
      | false => simp only [List.lookup, hay, hax]
    | false =>
      cases hax : a == x.1 with
      | true => simp only [List.lookup, hay, hax]
      | false => simp only [List.lookup, hay, hax]
  | trans h12 h23 ih12 ih23 =>
    intro hnd a
    have nd2 := (h12.map Prod.fst).nodup hnd
    exact (ih12 hnd a).trans (ih23 nd2 a)

theorem insertionSort_keys_perm {ks kt : List Char} (h : ks.Perm kt) :
    List.insertionSort (· ≤ ·) ks = List.insertionSort (· ≤ ·) kt :=
  List.eq_of_perm_of_sorted
    ((List.perm_insertionSort _ ks).trans (h.trans (List.perm_insertionSort _ kt).symm))
    (List.sorted_insertionSort _ ks) (List.sorted_insertionSort _ kt)

theorem entryRowsGo_congr (lookup : Char → Option (List Char)) (now : Nat)
    {e1 e2 : List (Char × List Char)} (h : ∀ a, e1.lookup a = e2.lookup a) :
    ∀ (ks : List Char) (u : Nat),
      entryRowsGo lookup now e1 ks u = entryRowsGo lookup now e2 ks u := by
  intro ks
  induction ks with
  | nil => intro u; rfl
  | cons ch rest ih =>
    intro u
    show mkEntryRow lookup now u ch ((e1.lookup ch).getD []) :: _ =
      mkEntryRow lookup now u ch ((e2.lookup ch).getD []) :: _
    rw [h ch, ih (u + 1)]

theorem entryRows_perm_eq (lookup : Char → Option (List Char)) (now : Nat)
    {e1 e2 : List (Char × List Char)} (hp : e1.Perm e2)
    (hnd : (e1.map Prod.fst).Nodup) :
    entryRows lookup now e2 = entryRows lookup now e1 := by
  unfold entryRows
  rw [insertionSort_keys_perm ((hp.map Prod.fst).symm)]
  exact entryRowsGo_congr lookup now (fun a => (lookup_perm hp hnd a).symm) _ 1

/-- C3: over a non-empty entry set of N distinct qualifying characters the
build commits; its uid values are exactly the contiguous range 1..N,
assigned in ascending order of character codepoint regardless of the order
the characters were discovered in (the build is invariant under permutation
of the entry set); and the single import-log row spans startentry 1 to
endentry N. -/
theorem build_uids_dense (lookup : Char → Option (List Char)) (now : Nat)
    (entries : List (Char × List Char))
    (hnd : (entries.map Prod.fst).Nodup) (hne : entries ≠ []) :
    ∃ db : DBFile,
      build_pqb lookup now entries = (some db, Except.ok ()) ∧
      db.rows.map EntryRow.uid = List.range' 1 entries.length ∧
      1 ≤ entries.length ∧
      db.importLog = [(now, now, 1, entries.length)] ∧
      (∃ ks : List Char, ks.Perm (entries.map Prod.fst) ∧
        List.Sorted (· < ·) ks ∧
        db.rows.map EntryRow.word = ks.map (fun c => [c])) ∧
      (∀ entries' : List (Char × List Char), entries.Perm entries' →
        build_pqb lookup now entries' = build_pqb lookup now entries) := by
  have hksnd : (List.insertionSort (· ≤ ·) (entries.map Prod.fst)).Nodup :=
    (List.perm_insertionSort _ _).symm.nodup hnd
  have hkslen : (List.insertionSort (· ≤ ·) (entries.map Prod.fst)).length =
      entries.length := by
    rw [(List.perm_insertionSort _ _).length_eq, List.length_map]
  have hlen : (entryRows lookup now entries).length = entries.length := by
    unfold entryRows
    rw [entryRowsGo_length, hkslen]
  have hok : insertEntries [] (entryRows lookup now entries) =
      Except.ok ([] ++ entryRows lookup now entries) :=
    insertEntries_ok_of _ []
      (fun r _ q hq => absurd hq (List.not_mem_nil q))
      (entryRows_pairwise lookup now entries hnd)
  rw [List.nil_append] at hok
  refine ⟨⟨true, entryRows lookup now entries,
      ((entryRows lookup now entries).map
        (fun r => insert_posdex r.uid r.word r.pron)).flatten,
      [(now, now, 1, entries.length)]⟩, ?_, ?_, ?_, rfl, ?_, ?_⟩
  · simp only [build_pqb]
    rw [hok, hlen]
  · show (entryRows lookup now entries).map EntryRow.uid = List.range' 1 entries.length
    unfold entryRows
    rw [entryRowsGo_map_uid, hkslen]
  · rw [Nat.one_le_iff_ne_zero]
    intro h0
    exact hne (List.length_eq_zero.mp h0)
  · refine ⟨List.insertionSort (· ≤ ·) (entries.map Prod.fst),
      List.perm_insertionSort _ _, ?_, ?_⟩
    · exact (List.sorted_insertionSort _ _).lt_of_le hksnd
    · show (entryRows lookup now entries).map EntryRow.word = _
      unfold entryRows
      rw [entryRowsGo_map_word]
  · intro entries' hp
    unfold build_pqb
    rw [entryRows_perm_eq lookup now hp hnd]

theorem build_uids_dense_witness :
    ∃ db : DBFile,
      build_pqb (fun _ => none) 0 [('一', [])] = (some db, Except.ok ()) ∧
      db.rows.map EntryRow.uid = List.range' 1 [('一', ([] : List Char))].length ∧
      1 ≤ [('一', ([] : List Char))].length ∧
      db.importLog = [(0, 0, 1, [('一', ([] : List Char))].length)] ∧
      (∃ ks : List Char, ks.Perm ([('一', ([] : List Char))].map Prod.fst) ∧
        List.Sorted (· < ·) ks ∧
        db.rows.map EntryRow.word = ks.map (fun c => [c])) ∧
      (∀ entries' : List (Char × List Char), [('一', ([] : List Char))].Perm entries' →
        build_pqb (fun _ => none) 0 entries' = build_pqb (fun _ => none) 0 [('一', [])]) :=
  build_uids_dense (fun _ => none) 0 [('一', [])] (by decide) (by decide)

/-- C8 counterexample: a build run that raises after the physical build has
begun (an integrity violation during the entry inserts) but before the
final commit leaves a file at the target output path — the claim that no
artifact, not even a partial one, remains is false. -/
theorem failure_leaves_artifact_cex :
    (build_pqb (fun _ => none) 0 [('一', []), ('一', [])]).2 =
      Except.error "IntegrityError: UNIQUE constraint failed" ∧
    (build_pqb (fun _ => none) 0 [('一', []), ('一', [])]).1 ≠ none :=
  ⟨rfl, by decide⟩

/-- C8 (amended): a failure occurring after the build of the physical store
has begun but before the final commit leaves the freshly created database
file at the target path with the committed schema and no committed entry
rows — the open transaction is rolled back and the prior artifact was
already deleted, but the file itself remains; the build is not
all-or-nothing. -/
theorem failure_leaves_schema_file (lookup : Char → Option (List Char)) (now : Nat)
    (entries : List (Char × List Char)) (e : String)
    (h : (build_pqb lookup now entries).2 = Except.error e) :
    (build_pqb lookup now entries).1 = some schemaOnlyDB ∧
    schemaOnlyDB.rows = [] ∧ schemaOnlyDB.importLog = [] ∧
    schemaOnlyDB.schemaBuilt = true := by
  refine ⟨?_, rfl, rfl, rfl⟩
  simp only [build_pqb] at h
  simp only [build_pqb]
  cases hres : insertEntries [] (entryRows lookup now entries) with
  | error e2 => rfl
  | ok tbl =>
    rw [hres] at h
    exact absurd h (by simp)

theorem failure_leaves_schema_file_witness :
    (build_pqb (fun _ => none) 0 [('二', []), ('二', [])]).1 = some schemaOnlyDB :=
  (failure_leaves_schema_file (fun _ => none) 0 [('二', []), ('二', [])]
    "IntegrityError: UNIQUE constraint failed" rfl).1
